import Mathlib

/-
  Shallow embedding of src/experiments/feal/feal8_1989_portable.c.

  The C code manipulates words through unions of the form
  { unsigned long All; ByteType Byte[4]; }.  Its own portability note
  (header comment and the comment in MakeH1) states that after writing
  Byte[0..3] the value read from All has its 4 HIGH bytes uninitialized
  on LP64 hosts, fixed by zero-initialization: this pins the documented
  host as little-endian, i.e. Byte[i] is the i-th LEAST significant byte
  of All.  The embedding below therefore models:
    - reading X.Byte[i] after X.All = w   as   w / 2 ^ (8 * i) % 256
    - zero-initializing a union, writing Byte[0..3] and reading All
      as   b0 % 256 + b1 % 256 * 256 + b2 % 256 * 65536 + b3 % 256 * 16777216
  Machine integers are Nat with explicit truncation (ByteType stores
  truncate mod 256; all HalfWord values stay below 2 ^ 32 because only
  bytes 0..3 are ever written on the zero-initialized unions).
-/

namespace Feal

/-- Reading X.Byte[i] of a union after X.All = w, on the little-endian
host documented by the C portability comments. -/
def uByte (w i : Nat) : Nat := w / 2 ^ (8 * i) % 256

/-- Zero-initialized 4-byte union: write Byte[0..3] (each store truncates
to ByteType), then read All. -/
def unionAll4 (b0 b1 b2 b3 : Nat) : Nat :=
  b0 % 256 + b1 % 256 * 256 + b2 % 256 * 65536 + b3 % 256 * 16777216

/-- Zero-initialized 2-byte union: write Byte[0..1], then read All. -/
def unionAll2 (b0 b1 : Nat) : Nat :=
  b0 % 256 + b1 % 256 * 256

/-- Loop body of the lazy table initialization in Rot2: for i from 0 to
n-1 starting from the given High and Low, record RetVal[i] = High + Low
(a ByteType store), then High += 4 and on overflow past 255 reset High
and increment Low. -/
def rot2Build : Nat → Nat → Nat → List Nat
  | 0, _, _ => []
  | n + 1, high, low =>
    ((high + low) % 256) ::
      (if high + 4 > 255 then rot2Build n 0 (low + 1) else rot2Build n (high + 4) low)

/-- Rot2 from the C source: return RetVal[X], where RetVal is the
256-entry table built by the increment-and-wrap loop above.  The index
is a ByteType, hence the mod 256. -/
def Rot2 (x : Nat) : Nat := (rot2Build 256 0 0).getD (x % 256) 0

/-- S0 from the C source: Rot2((X1 + X2) & 0xff). -/
def S0 (x1 x2 : Nat) : Nat := Rot2 ((x1 + x2) % 256)

/-- S1 from the C source: Rot2((X1 + X2 + 1) & 0xff). -/
def S1 (x1 x2 : Nat) : Nat := Rot2 ((x1 + x2 + 1) % 256)

/-- MakeH1 from the C source: zero-initialize the union, write the four
bytes into Byte[0..3], read All. -/
def MakeH1 (b0 b1 b2 b3 : Nat) : Nat := unionAll4 b0 b1 b2 b3

/-- DissQ1 from the C source: QQ.All = Q, then read Byte[0] and Byte[1]. -/
def DissQ1 (q : Nat) : Nat × Nat := (uByte q 0, uByte q 1)

/-- MakeH2 from the C source: disassemble the two quarterwords into a
4-byte buffer (q0 first), then MakeH1. -/
def MakeH2 (q0 q1 : Nat) : Nat :=
  MakeH1 (DissQ1 q0).1 (DissQ1 q0).2 (DissQ1 q1).1 (DissQ1 q1).2

/-- DissH1 from the C source: T.All = H, then read Byte[0..3]. -/
def DissH1 (h : Nat) : Nat × Nat × Nat × Nat :=
  (uByte h 0, uByte h 1, uByte h 2, uByte h 3)

/-- The round function f from the C source, line by line:
f1 = A.Byte[1] ^ B.Byte[0] ^ A.Byte[0]; f2 = A.Byte[2] ^ B.Byte[1] ^ A.Byte[3];
f1 = S1(f1, f2); f2 = S0(f2, f1); then the zero-initialized RetVal union
gets Byte[1] = f1, Byte[2] = f2, Byte[0] = S0(A.Byte[0], f1),
Byte[3] = S1(A.Byte[3], f2), and All is returned. -/
def f (AA BB : Nat) : Nat :=
  let f1 := uByte AA 1 ^^^ uByte BB 0 ^^^ uByte AA 0
  let f2 := uByte AA 2 ^^^ uByte BB 1 ^^^ uByte AA 3
  let f1' := S1 f1 f2
  let f2' := S0 f2 f1'
  unionAll4 (S0 (uByte AA 0) f1') f1' f2' (S1 (uByte AA 3) f2')

/-- The key-schedule combiner FK from the C source:
FK1 = A.Byte[1] ^ A.Byte[0]; FK2 = A.Byte[2] ^ A.Byte[3];
FK1 = S1(FK1, FK2 ^ B.Byte[0]); FK2 = S0(FK2, FK1 ^ B.Byte[1]);
RetVal.Byte[1] = FK1; RetVal.Byte[2] = FK2;
RetVal.Byte[0] = S0(A.Byte[0], FK1 ^ B.Byte[2]);
RetVal.Byte[3] = S1(A.Byte[3], FK2 ^ B.Byte[3]). -/
def FK (AA BB : Nat) : Nat :=
  let FK1 := uByte AA 1 ^^^ uByte AA 0
  let FK2 := uByte AA 2 ^^^ uByte AA 3
  let FK1' := S1 FK1 (FK2 ^^^ uByte BB 0)
  let FK2' := S0 FK2 (FK1' ^^^ uByte BB 1)
  unionAll4 (S0 (uByte AA 0) (FK1' ^^^ uByte BB 2)) FK1' FK2'
    (S1 (uByte AA 3) (FK2' ^^^ uByte BB 3))

/-- The global key state of the C source: QuarterWord K[16] and the four
whitening HalfWords. -/
structure KeySchedule where
  K : List Nat
  K89 : Nat
  K1011 : Nat
  K1213 : Nat
  K1415 : Nat
deriving DecidableEq

/-- The loop of SetKey: n remaining iterations with current union values
A, B, D.  Each iteration computes NewB = FK(A.All, B.All ^ D.All),
shifts D = A, A = B, B = NewB, and emits the two quarterwords made from
B.Byte[0],B.Byte[1] and from B.Byte[2],B.Byte[3], in that order. -/
def setKeyLoop : Nat → Nat → Nat → Nat → List Nat
  | 0, _, _, _ => []
  | n + 1, a, b, d =>
    let NewB := FK a (b ^^^ d)
    unionAll2 (uByte NewB 0) (uByte NewB 1) ::
      unionAll2 (uByte NewB 2) (uByte NewB 3) ::
        setKeyLoop n b NewB a

/-- SetKey from the C source: pack the first four key bytes into A and
the next four into B (zero-initialized unions, bytes written in order),
set D = 0, run the 8-iteration loop filling K[0..15], then derive the
four whitening halfwords with MakeH2 on K[8..15]. -/
def SetKey (k0 k1 k2 k3 k4 k5 k6 k7 : Nat) : KeySchedule :=
  let a := unionAll4 k0 k1 k2 k3
  let b := unionAll4 k4 k5 k6 k7
  let Ks := setKeyLoop 8 a b 0
  { K := Ks
    K89 := MakeH2 (Ks.getD 8 0) (Ks.getD 9 0)
    K1011 := MakeH2 (Ks.getD 10 0) (Ks.getD 11 0)
    K1213 := MakeH2 (Ks.getD 12 0) (Ks.getD 13 0)
    K1415 := MakeH2 (Ks.getD 14 0) (Ks.getD 15 0) }

/-- An 8-byte block, the unit Encrypt and Decrypt read and write. -/
structure Block where
  b0 : Nat
  b1 : Nat
  b2 : Nat
  b3 : Nat
  b4 : Nat
  b5 : Nat
  b6 : Nat
  b7 : Nat
deriving DecidableEq

/-- One encryption round of the C source loop: NewR = L ^ f(R, k);
L = R; R = NewR, on the state pair (L, R). -/
def encStep (q : Nat × Nat) (k : Nat) : Nat × Nat :=
  (q.2, q.1 ^^^ f q.2 k)

/-- One decryption round of the C source loop: NewL = R ^ f(L, k);
R = L; L = NewL, on the state pair (L, R). -/
def decStep (q : Nat × Nat) (k : Nat) : Nat × Nat :=
  (q.2 ^^^ f q.1 k, q.1)

/-- Encrypt from the C source: L and R from the plaintext bytes,
pre-whitening L ^= K89, R ^= K1011, R ^= L, eight rounds for r = 0..7
consuming K[r], post-whitening L ^= R, R ^= K1213, L ^= K1415, and the
output block is DissH1(R) followed by DissH1(L). -/
def Encrypt (s : KeySchedule) (p : Block) : Block :=
  let L := MakeH1 p.b0 p.b1 p.b2 p.b3 ^^^ s.K89
  let R := MakeH1 p.b4 p.b5 p.b6 p.b7 ^^^ s.K1011 ^^^ L
  let q := (List.range 8).foldl (fun q r => encStep q (s.K.getD r 0)) (L, R)
  let Lp := q.1 ^^^ q.2
  let Rp := q.2 ^^^ s.K1213
  let Lq := Lp ^^^ s.K1415
  ⟨uByte Rp 0, uByte Rp 1, uByte Rp 2, uByte Rp 3,
   uByte Lq 0, uByte Lq 1, uByte Lq 2, uByte Lq 3⟩

/-- Decrypt from the C source: R and L from the ciphertext bytes,
R ^= K1213, L ^= K1415, L ^= R, eight rounds for r = 7 down to 0
consuming K[r], then R ^= L, R ^= K1011, L ^= K89, and the output block
is DissH1(L) followed by DissH1(R). -/
def Decrypt (s : KeySchedule) (c : Block) : Block :=
  let R := MakeH1 c.b0 c.b1 c.b2 c.b3 ^^^ s.K1213
  let L := MakeH1 c.b4 c.b5 c.b6 c.b7 ^^^ s.K1415 ^^^ R
  let q := (List.range 8).reverse.foldl (fun q r => decStep q (s.K.getD r 0)) (L, R)
  let Rp := q.2 ^^^ q.1 ^^^ s.K1011
  let Lp := q.1 ^^^ s.K89
  ⟨uByte Lp 0, uByte Lp 1, uByte Lp 2, uByte Lp 3,
   uByte Rp 0, uByte Rp 1, uByte Rp 2, uByte Rp 3⟩

/-- One iteration of the key-schedule recurrence as the claim states it:
from the state (A, B, D), NewB = FK(A, B xor D), and the next state is
(B, NewB, A). -/
def schedStep (s : Nat × Nat × Nat) : Nat × Nat × Nat :=
  (s.2.1, FK s.1 (s.2.1 ^^^ s.2.2), s.1)

/-- Iterating the key-schedule recurrence i times from a start state. -/
def schedIter : Nat → Nat × Nat × Nat → Nat × Nat × Nat
  | 0, s => s
  | i + 1, s => schedIter i (schedStep s)

/-- The eight Feistel rounds as the claim states them: the round index
r increases strictly, and round r consumes subkey K[r] exactly once. -/
def encRoundsIdx (s : KeySchedule) : Nat → Nat × Nat → Nat × Nat
  | 0, q => q
  | n + 1, q => encStep (encRoundsIdx s n q) (s.K.getD n 0)

/-- State-passing rendering of the C Encrypt for the frame claim: the C
function reads the globals K, K89, K1011, K1213, K1415 and assigns only
its locals and the output buffer, so the translated global state
component is returned unchanged next to the ciphertext block. -/
def EncryptSt (g : KeySchedule) (p : Block) : KeySchedule × Block :=
  (g, Encrypt g p)

/-- State-passing rendering of the C Decrypt; like Encrypt it contains
no assignment to any global. -/
def DecryptSt (g : KeySchedule) (c : Block) : KeySchedule × Block :=
  (g, Decrypt g c)

/-- A call made against the global key state: one Encrypt or one
Decrypt of some block. -/
inductive CipherOp where
  | enc : Block → CipherOp
  | dec : Block → CipherOp

/-- Threads the global key state through a sequence of Encrypt and
Decrypt calls. -/
def runOps : List CipherOp → KeySchedule → KeySchedule
  | [], g => g
  | .enc b :: ops, g => runOps ops (EncryptSt g b).1
  | .dec b :: ops, g => runOps ops (DecryptSt g b).1

/-- Construction errors of the spec-level API. -/
inductive FealError where
  | InvalidKeyLength : FealError
  | InvalidBlockLength : FealError
deriving DecidableEq

/-- Modelled from the spec: the C sources under src expose raw 8-byte
pointer interfaces with no length validation, and the spec (sections 6
and 7) places the InvalidKeyLength check at the construction boundary
of derive_schedule, which is not part of the C code; a key of any
length other than 8 bytes is rejected and an 8-byte key is consumed
byte for byte, never truncated or padded. -/
def derive_schedule (key : List Nat) : Except FealError KeySchedule :=
  match key with
  | [k0, k1, k2, k3, k4, k5, k6, k7] => .ok (SetKey k0 k1 k2 k3 k4 k5 k6 k7)
  | _ => .error .InvalidKeyLength

/-- Modelled from the spec: the InvalidBlockLength check of the
encrypt_block construction boundary, absent from the C code; an 8-byte
plaintext is passed to Encrypt byte for byte. -/
def encrypt_block (p : List Nat) (s : KeySchedule) : Except FealError (List Nat) :=
  match p with
  | [p0, p1, p2, p3, p4, p5, p6, p7] =>
    let c := Encrypt s ⟨p0, p1, p2, p3, p4, p5, p6, p7⟩
    .ok [c.b0, c.b1, c.b2, c.b3, c.b4, c.b5, c.b6, c.b7]
  | _ => .error .InvalidBlockLength

/-- Modelled from the spec: the InvalidBlockLength check of the
decrypt_block construction boundary, absent from the C code; an 8-byte
ciphertext is passed to Decrypt byte for byte. -/
def decrypt_block (c : List Nat) (s : KeySchedule) : Except FealError (List Nat) :=
  match c with
  | [c0, c1, c2, c3, c4, c5, c6, c7] =>
    let p := Decrypt s ⟨c0, c1, c2, c3, c4, c5, c6, c7⟩
    .ok [p.b0, p.b1, p.b2, p.b3, p.b4, p.b5, p.b6, p.b7]
  | _ => .error .InvalidBlockLength

/- Auxiliary lemmas about the byte-level arithmetic of the embedding. -/

theorem lor_disjoint (n a b : Nat) (hb : b < 2 ^ n) : a <<< n ||| b = a * 2 ^ n + b := by
  apply Nat.eq_of_testBit_eq
  intro j
  rw [Nat.testBit_lor, Nat.shiftLeft_eq, Nat.mul_comm a (2 ^ n), Nat.testBit_mul_pow_two,
    Nat.testBit_mul_pow_two_add a hb]
  by_cases hj : j < n
  · simp [hj, Nat.not_le.mpr hj]
  · rw [Nat.testBit_lt_two_pow
      (lt_of_lt_of_le hb (Nat.pow_le_pow_right (by norm_num) (Nat.not_lt.mp hj)))]
    simp [hj, Nat.not_lt.mp hj]

theorem uByte_zero (w : Nat) : uByte w 0 = w % 256 := by
  simp [uByte]

theorem uByte_one (w : Nat) : uByte w 1 = w / 256 % 256 := by
  norm_num [uByte]

theorem uByte_two (w : Nat) : uByte w 2 = w / 65536 % 256 := by
  norm_num [uByte]

theorem uByte_three (w : Nat) : uByte w 3 = w / 16777216 % 256 := by
  norm_num [uByte]

theorem unionAll4_lt (b0 b1 b2 b3 : Nat) : unionAll4 b0 b1 b2 b3 < 4294967296 := by
  unfold unionAll4
  omega

theorem unionAll2_lt (b0 b1 : Nat) : unionAll2 b0 b1 < 65536 := by
  unfold unionAll2
  omega

theorem uByte_unionAll4 (b0 b1 b2 b3 : Nat) :
    uByte (unionAll4 b0 b1 b2 b3) 0 = b0 % 256 ∧
    uByte (unionAll4 b0 b1 b2 b3) 1 = b1 % 256 ∧
    uByte (unionAll4 b0 b1 b2 b3) 2 = b2 % 256 ∧
    uByte (unionAll4 b0 b1 b2 b3) 3 = b3 % 256 := by
  rw [uByte_zero, uByte_one, uByte_two, uByte_three]
  unfold unionAll4
  omega

theorem unionAll4_uByte (w : Nat) (h : w < 4294967296) :
    unionAll4 (uByte w 0) (uByte w 1) (uByte w 2) (uByte w 3) = w := by
  rw [uByte_zero, uByte_one, uByte_two, uByte_three]
  unfold unionAll4
  omega

theorem uByte_unionAll2 (b0 b1 : Nat) :
    uByte (unionAll2 b0 b1) 0 = b0 % 256 ∧ uByte (unionAll2 b0 b1) 1 = b1 % 256 := by
  rw [uByte_zero, uByte_one]
  unfold unionAll2
  omega

theorem unionAll2_uByte (q : Nat) (h : q < 65536) :
    unionAll2 (uByte q 0) (uByte q 1) = q := by
  rw [uByte_zero, uByte_one]
  unfold unionAll2
  omega

theorem rot2Build_getD_lt :
    ∀ (n high low i : Nat), (rot2Build n high low).getD i 0 < 256 := by
  intro n
  induction n with
  | zero => intro high low i; simp [rot2Build]
  | succ m ih =>
    intro high low i
    cases i with
    | zero => simp only [rot2Build, List.getD_cons_zero]; omega
    | succ j =>
      simp only [rot2Build, List.getD_cons_succ]
      split
      · exact ih 0 (low + 1) j
      · exact ih (high + 4) low j

theorem Rot2_lt (x : Nat) : Rot2 x < 256 :=
  rot2Build_getD_lt 256 0 0 (x % 256)

theorem S0_lt (x1 x2 : Nat) : S0 x1 x2 < 256 := Rot2_lt _

theorem S1_lt (x1 x2 : Nat) : S1 x1 x2 < 256 := Rot2_lt _

theorem MakeH1_lt (b0 b1 b2 b3 : Nat) : MakeH1 b0 b1 b2 b3 < 4294967296 :=
  unionAll4_lt b0 b1 b2 b3

theorem MakeH2_lt (q0 q1 : Nat) : MakeH2 q0 q1 < 4294967296 :=
  unionAll4_lt _ _ _ _

theorem f_lt (AA BB : Nat) : f AA BB < 4294967296 := unionAll4_lt _ _ _ _

theorem FK_lt (AA BB : Nat) : FK AA BB < 4294967296 := unionAll4_lt _ _ _ _

theorem xor32 {x y : Nat} (hx : x < 4294967296) (hy : y < 4294967296) :
    x ^^^ y < 4294967296 := by
  have h : (4294967296 : Nat) = 2 ^ 32 := by norm_num
  rw [h] at hx hy ⊢
  exact Nat.xor_lt_two_pow hx hy

theorem setKeyLoop_getD_lt :
    ∀ (n a b d i : Nat), (setKeyLoop n a b d).getD i 0 < 65536 := by
  intro n
  induction n with
  | zero => intro a b d i; simp [setKeyLoop]
  | succ m ih =>
    intro a b d i
    match i with
    | 0 => exact unionAll2_lt _ _
    | 1 => exact unionAll2_lt _ _
    | j + 2 =>
      simp only [setKeyLoop, List.getD_cons_succ]
      exact ih b (FK a (b ^^^ d)) a j

theorem SetKey_K89_lt (k0 k1 k2 k3 k4 k5 k6 k7 : Nat) :
    (SetKey k0 k1 k2 k3 k4 k5 k6 k7).K89 < 4294967296 := MakeH2_lt _ _

theorem SetKey_K1011_lt (k0 k1 k2 k3 k4 k5 k6 k7 : Nat) :
    (SetKey k0 k1 k2 k3 k4 k5 k6 k7).K1011 < 4294967296 := MakeH2_lt _ _

theorem SetKey_K1213_lt (k0 k1 k2 k3 k4 k5 k6 k7 : Nat) :
    (SetKey k0 k1 k2 k3 k4 k5 k6 k7).K1213 < 4294967296 := MakeH2_lt _ _

theorem SetKey_K1415_lt (k0 k1 k2 k3 k4 k5 k6 k7 : Nat) :
    (SetKey k0 k1 k2 k3 k4 k5 k6 k7).K1415 < 4294967296 := MakeH2_lt _ _

/- Lemmas about the Feistel round folds. -/

theorem decStep_encStep (q : Nat × Nat) (k : Nat) : decStep (encStep q k) k = q := by
  simp [encStep, decStep, Nat.xor_cancel_right]

theorem foldl_decStep_reverse (ks : List Nat) (s : Nat × Nat) :
    ks.reverse.foldl decStep (ks.foldl encStep s) = s := by
  induction ks generalizing s with
  | nil => rfl
  | cons k ks ih =>
    rw [List.foldl_cons, List.reverse_cons, List.foldl_append, ih (encStep s k)]
    exact decStep_encStep s k

theorem foldl_encStep_lt (ks : List Nat) (s : Nat × Nat)
    (h1 : s.1 < 4294967296) (h2 : s.2 < 4294967296) :
    (ks.foldl encStep s).1 < 4294967296 ∧ (ks.foldl encStep s).2 < 4294967296 := by
  induction ks generalizing s with
  | nil => exact ⟨h1, h2⟩
  | cons k ks ih =>
    rw [List.foldl_cons]
    exact ih (encStep s k) h2 (xor32 h1 (f_lt _ _))

theorem foldl_decStep_lt (ks : List Nat) (s : Nat × Nat)
    (h1 : s.1 < 4294967296) (h2 : s.2 < 4294967296) :
    (ks.foldl decStep s).1 < 4294967296 ∧ (ks.foldl decStep s).2 < 4294967296 := by
  induction ks generalizing s with
  | nil => exact ⟨h1, h2⟩
  | cons k ks ih =>
    rw [List.foldl_cons]
    exact ih (decStep s k) (xor32 h2 (f_lt _ _)) h1

theorem MakeH1_uByte (w : Nat) (h : w < 4294967296) :
    MakeH1 (uByte w 0) (uByte w 1) (uByte w 2) (uByte w 3) = w :=
  unionAll4_uByte w h

theorem uByte_MakeH1_zero (b0 b1 b2 b3 : Nat) : uByte (MakeH1 b0 b1 b2 b3) 0 = b0 % 256 :=
  (uByte_unionAll4 b0 b1 b2 b3).1

theorem uByte_MakeH1_one (b0 b1 b2 b3 : Nat) : uByte (MakeH1 b0 b1 b2 b3) 1 = b1 % 256 :=
  (uByte_unionAll4 b0 b1 b2 b3).2.1

theorem uByte_MakeH1_two (b0 b1 b2 b3 : Nat) : uByte (MakeH1 b0 b1 b2 b3) 2 = b2 % 256 :=
  (uByte_unionAll4 b0 b1 b2 b3).2.2.1

theorem uByte_MakeH1_three (b0 b1 b2 b3 : Nat) : uByte (MakeH1 b0 b1 b2 b3) 3 = b3 % 256 :=
  (uByte_unionAll4 b0 b1 b2 b3).2.2.2

/-- Round-trip for an arbitrary key schedule whose whitening halfwords
fit in 32 bits, as every schedule produced by SetKey does. -/
theorem round_trip_general (s : KeySchedule)
    (h89 : s.K89 < 4294967296) (h1011 : s.K1011 < 4294967296)
    (h1213 : s.K1213 < 4294967296) (h1415 : s.K1415 < 4294967296)
    (p0 p1 p2 p3 p4 p5 p6 p7 : Nat)
    (hp0 : p0 < 256) (hp1 : p1 < 256) (hp2 : p2 < 256) (hp3 : p3 < 256)
    (hp4 : p4 < 256) (hp5 : p5 < 256) (hp6 : p6 < 256) (hp7 : p7 < 256) :
    Decrypt s (Encrypt s ⟨p0, p1, p2, p3, p4, p5, p6, p7⟩)
      = ⟨p0, p1, p2, p3, p4, p5, p6, p7⟩ := by
  simp only [Encrypt, Decrypt]
  set PL := MakeH1 p0 p1 p2 p3 with hPL
  set PR := MakeH1 p4 p5 p6 p7 with hPR
  set L0 := PL ^^^ s.K89 with hL0
  set R0 := PR ^^^ s.K1011 ^^^ L0 with hR0
  rw [← List.foldl_map (fun r => s.K.getD r 0) encStep (List.range 8) (L0, R0)]
  set ks := (List.range 8).map (fun r => s.K.getD r 0) with hks
  set q := ks.foldl encStep (L0, R0) with hq
  have hL0lt : L0 < 4294967296 := xor32 (MakeH1_lt p0 p1 p2 p3) h89
  have hR0lt : R0 < 4294967296 := xor32 (xor32 (MakeH1_lt p4 p5 p6 p7) h1011) hL0lt
  have hqlt := foldl_encStep_lt ks (L0, R0) hL0lt hR0lt
  rw [← hq] at hqlt
  have hRp : MakeH1 (uByte (q.2 ^^^ s.K1213) 0) (uByte (q.2 ^^^ s.K1213) 1)
      (uByte (q.2 ^^^ s.K1213) 2) (uByte (q.2 ^^^ s.K1213) 3) = q.2 ^^^ s.K1213 :=
    MakeH1_uByte _ (xor32 hqlt.2 h1213)
  have hLq : MakeH1 (uByte (q.1 ^^^ q.2 ^^^ s.K1415) 0) (uByte (q.1 ^^^ q.2 ^^^ s.K1415) 1)
      (uByte (q.1 ^^^ q.2 ^^^ s.K1415) 2) (uByte (q.1 ^^^ q.2 ^^^ s.K1415) 3)
      = q.1 ^^^ q.2 ^^^ s.K1415 :=
    MakeH1_uByte _ (xor32 (xor32 hqlt.1 hqlt.2) h1415)
  rw [hRp, hLq, Nat.xor_cancel_right, Nat.xor_cancel_right, Nat.xor_cancel_right]
  rw [← List.foldl_map (fun r => s.K.getD r 0) decStep (List.range 8).reverse (q.1, q.2),
    List.map_reverse, ← hks, Prod.mk.eta, hq, foldl_decStep_reverse ks (L0, R0)]
  dsimp only
  rw [hR0, Nat.xor_cancel_right, Nat.xor_cancel_right, Nat.xor_cancel_right, hPL, hPR]
  simp only [uByte_MakeH1_zero, uByte_MakeH1_one, uByte_MakeH1_two, uByte_MakeH1_three,
    Nat.mod_eq_of_lt hp0, Nat.mod_eq_of_lt hp1, Nat.mod_eq_of_lt hp2, Nat.mod_eq_of_lt hp3,
    Nat.mod_eq_of_lt hp4, Nat.mod_eq_of_lt hp5, Nat.mod_eq_of_lt hp6, Nat.mod_eq_of_lt hp7]

/-- C1: for every 8-byte master key and every 8-byte block, decrypting
the encryption of the block under the key schedule derived from the key
returns the block: Decrypt(Encrypt(p, SetKey(k)), SetKey(k)) = p. -/
theorem feal8_round_trip (k0 k1 k2 k3 k4 k5 k6 k7 p0 p1 p2 p3 p4 p5 p6 p7 : Nat)
    (hk0 : k0 < 256) (hk1 : k1 < 256) (hk2 : k2 < 256) (hk3 : k3 < 256)
    (hk4 : k4 < 256) (hk5 : k5 < 256) (hk6 : k6 < 256) (hk7 : k7 < 256)
    (hp0 : p0 < 256) (hp1 : p1 < 256) (hp2 : p2 < 256) (hp3 : p3 < 256)
    (hp4 : p4 < 256) (hp5 : p5 < 256) (hp6 : p6 < 256) (hp7 : p7 < 256) :
    Decrypt (SetKey k0 k1 k2 k3 k4 k5 k6 k7)
        (Encrypt (SetKey k0 k1 k2 k3 k4 k5 k6 k7) ⟨p0, p1, p2, p3, p4, p5, p6, p7⟩)
      = ⟨p0, p1, p2, p3, p4, p5, p6, p7⟩ :=
  round_trip_general _ (SetKey_K89_lt k0 k1 k2 k3 k4 k5 k6 k7)
    (SetKey_K1011_lt k0 k1 k2 k3 k4 k5 k6 k7) (SetKey_K1213_lt k0 k1 k2 k3 k4 k5 k6 k7)
    (SetKey_K1415_lt k0 k1 k2 k3 k4 k5 k6 k7) p0 p1 p2 p3 p4 p5 p6 p7
    hp0 hp1 hp2 hp3 hp4 hp5 hp6 hp7

/-- Witness for C1 at the key 01 23 45 67 89 ab cd ef and the all-zero
plaintext block. -/
theorem feal8_round_trip_witness :
    Decrypt (SetKey 0x01 0x23 0x45 0x67 0x89 0xab 0xcd 0xef)
        (Encrypt (SetKey 0x01 0x23 0x45 0x67 0x89 0xab 0xcd 0xef) ⟨0, 0, 0, 0, 0, 0, 0, 0⟩)
      = ⟨0, 0, 0, 0, 0, 0, 0, 0⟩ :=
  feal8_round_trip 0x01 0x23 0x45 0x67 0x89 0xab 0xcd 0xef 0 0 0 0 0 0 0 0
    (by decide) (by decide) (by decide) (by decide) (by decide) (by decide) (by decide)
    (by decide) (by decide) (by decide) (by decide) (by decide) (by decide) (by decide)
    (by decide) (by decide)

set_option maxRecDepth 8000 in
/-- C2: the table that the increment-and-wrap loop of Rot2 builds agrees
with the direct 2-bit left rotation formula ((v << 2) | (v >> 6)) & 0xff
on all 256 byte values, and consequently S0 and S1 are that rotation of
the byte sums x1 + x2 and x1 + x2 + 1. -/
theorem rot2_table_matches_direct :
    (∀ v, v < 256 → Rot2 v = (v <<< 2 ||| v >>> 6) % 256) ∧
    (∀ x1 x2, S0 x1 x2 =
      (((x1 + x2) % 256) <<< 2 ||| ((x1 + x2) % 256) >>> 6) % 256) ∧
    (∀ x1 x2, S1 x1 x2 =
      (((x1 + x2 + 1) % 256) <<< 2 ||| ((x1 + x2 + 1) % 256) >>> 6) % 256) := by
  have h1 : ∀ v, v < 256 → Rot2 v = (v <<< 2 ||| v >>> 6) % 256 := by decide
  refine ⟨h1, fun x1 x2 => h1 _ ?_, fun x1 x2 => h1 _ ?_⟩ <;> exact Nat.mod_lt _ (by norm_num)

/-- Witness for C2 at the byte value 3. -/
theorem rot2_table_matches_direct_witness :
    Rot2 3 = ((3 : Nat) <<< 2 ||| (3 : Nat) >>> 6) % 256 :=
  rot2_table_matches_direct.1 3 (by decide)

/-- Counterexample to C3 as stated: on the little-endian host documented
by the sources own portability comments, MakeH1 puts its first byte in
the LEAST significant position, so MakeH1 1 0 0 0 = 1 and not
(1 << 24) | (0 << 16) | (0 << 8) | 0 = 16777216. -/
theorem makeH1_not_bigendian :
    MakeH1 1 0 0 0 ≠ ((1 : Nat) <<< 24 ||| (0 : Nat) <<< 16 ||| (0 : Nat) <<< 8 ||| 0) := by
  decide

/-- C3 amended: MakeH1 applied to bytes b0,b1,b2,b3 returns the 32-bit
value (b3 << 24) | (b2 << 16) | (b1 << 8) | b0 - byte 0 is the least
significant byte on the little-endian host the code documents - and
every bit above bit 31 is zero. -/
theorem makeH1_littleendian (b0 b1 b2 b3 : Nat)
    (h0 : b0 < 256) (h1 : b1 < 256) (h2 : b2 < 256) (h3 : b3 < 256) :
    MakeH1 b0 b1 b2 b3 = (b3 <<< 24 ||| (b2 <<< 16 ||| (b1 <<< 8 ||| b0)))
      ∧ MakeH1 b0 b1 b2 b3 < 2 ^ 32 := by
  have e1 : b1 <<< 8 ||| b0 = b1 * 2 ^ 8 + b0 := lor_disjoint 8 b1 b0 (by omega)
  have e2 : b2 <<< 16 ||| (b1 * 2 ^ 8 + b0) = b2 * 2 ^ 16 + (b1 * 2 ^ 8 + b0) :=
    lor_disjoint 16 b2 _ (by norm_num; omega)
  have e3 : b3 <<< 24 ||| (b2 * 2 ^ 16 + (b1 * 2 ^ 8 + b0))
      = b3 * 2 ^ 24 + (b2 * 2 ^ 16 + (b1 * 2 ^ 8 + b0)) :=
    lor_disjoint 24 b3 _ (by norm_num; omega)
  rw [e1, e2, e3]
  unfold MakeH1 unionAll4
  norm_num
  omega

/-- Witness for the amended C3 at the bytes 1, 2, 3, 4. -/
theorem makeH1_littleendian_witness :
    MakeH1 1 2 3 4 = ((4 : Nat) <<< 24 ||| ((3 : Nat) <<< 16 ||| ((2 : Nat) <<< 8 ||| 1)))
      ∧ MakeH1 1 2 3 4 < 2 ^ 32 :=
  makeH1_littleendian 1 2 3 4 (by decide) (by decide) (by decide) (by decide)

theorem unionAll4_eq_lor (b0 b1 b2 b3 : Nat)
    (h0 : b0 < 256) (h1 : b1 < 256) (h2 : b2 < 256) (h3 : b3 < 256) :
    unionAll4 b0 b1 b2 b3 = b3 <<< 24 ||| (b2 <<< 16 ||| (b1 <<< 8 ||| b0)) := by
  have e1 : b1 <<< 8 ||| b0 = b1 * 2 ^ 8 + b0 := lor_disjoint 8 b1 b0 (by omega)
  have e2 : b2 <<< 16 ||| (b1 * 2 ^ 8 + b0) = b2 * 2 ^ 16 + (b1 * 2 ^ 8 + b0) :=
    lor_disjoint 16 b2 _ (by norm_num; omega)
  have e3 : b3 <<< 24 ||| (b2 * 2 ^ 16 + (b1 * 2 ^ 8 + b0))
      = b3 * 2 ^ 24 + (b2 * 2 ^ 16 + (b1 * 2 ^ 8 + b0)) :=
    lor_disjoint 24 b3 _ (by norm_num; omega)
  rw [e1, e2, e3]
  unfold unionAll4
  norm_num
  omega

set_option maxRecDepth 8000 in
/-- Counterexample to C6 as stated: reading the two operand bytes of f
with byte 0 as the MOST significant byte (the section 4.1 packing the
claim cites) does not reproduce f. At AA = 1, BB = 0 the formula of the
claim under that big-endian reading gives a value different from
f 1 0, because the union byte order of the code is little-endian. -/
theorem f_not_bigendian :
    (let AA : Nat := 1
     let BB : Nat := 0
     let a0 := AA / 2 ^ 24 % 256
     let a1 := AA / 2 ^ 16 % 256
     let a2 := AA / 2 ^ 8 % 256
     let a3 := AA % 256
     let b0 := BB / 2 ^ 8 % 256
     let b1 := BB % 256
     let t1 := a1 ^^^ b0 ^^^ a0
     let t2 := a2 ^^^ b1 ^^^ a3
     let t1' := S1 t1 t2
     let t2' := S0 t2 t1'
     f AA BB ≠ S0 a0 t1' <<< 24 ||| (t1' <<< 16 ||| (t2' <<< 8 ||| S1 a3 t2'))) := by
  decide

/-- C6 amended: with byte 0 the LEAST significant byte of A and of B
(the little-endian union order of the code), f(A, B) is the halfword
whose bytes, least significant first, are S0(a0, t1q), t1q, t2q,
S1(a3, t2q), where t1 = a1 xor b0 xor a0, t2 = a2 xor b1 xor a3,
t1q = S1(t1, t2), t2q = S0(t2, t1q), packed little-endian. -/
theorem f_formula (AA BB : Nat) :
    f AA BB =
      (let a0 := uByte AA 0
       let a1 := uByte AA 1
       let a2 := uByte AA 2
       let a3 := uByte AA 3
       let b0 := uByte BB 0
       let b1 := uByte BB 1
       let t1 := a1 ^^^ b0 ^^^ a0
       let t2 := a2 ^^^ b1 ^^^ a3
       let t1' := S1 t1 t2
       let t2' := S0 t2 t1'
       S1 a3 t2' <<< 24 ||| (t2' <<< 16 ||| (t1' <<< 8 ||| S0 a0 t1'))) :=
  unionAll4_eq_lor _ _ _ _ (S0_lt _ _) (S1_lt _ _) (S0_lt _ _) (S1_lt _ _)

theorem setKeyLoop_getD_spec :
    ∀ (i n a b d : Nat), i < n →
      (setKeyLoop n a b d).getD (2 * i) 0
          = unionAll2 (uByte ((schedIter (i + 1) (a, b, d)).2.1) 0)
              (uByte ((schedIter (i + 1) (a, b, d)).2.1) 1) ∧
      (setKeyLoop n a b d).getD (2 * i + 1) 0
          = unionAll2 (uByte ((schedIter (i + 1) (a, b, d)).2.1) 2)
              (uByte ((schedIter (i + 1) (a, b, d)).2.1) 3) := by
  intro i
  induction i with
  | zero =>
    intro n a b d hn
    match n, hn with
    | m + 1, _ =>
      simp [setKeyLoop, schedIter, schedStep]
  | succ j ih =>
    intro n a b d hn
    match n, hn with
    | m + 1, hn =>
      have hj : j < m := by omega
      have e1 : 2 * (j + 1) = (2 * j + 1) + 1 := by omega
      have e2 : 2 * (j + 1) + 1 = ((2 * j + 1) + 1) + 1 := by omega
      constructor
      · rw [e1]
        simpa [setKeyLoop, schedIter, schedStep] using (ih m b (FK a (b ^^^ d)) a hj).1
      · rw [e2]
        simpa [setKeyLoop, schedIter, schedStep] using (ih m b (FK a (b ^^^ d)) a hj).2

/-- C4: the key schedule stored by SetKey satisfies the recurrence of
the claim. Starting from A = packed key bytes 0..3, B = packed key
bytes 4..7 and D = 0, iterating NewB = FK(A, B xor D) with the shift
D, A, B = A, B, NewB, iteration i (for 1 <= i <= 8) emits
K[2i-2] from bytes 0,1 of the new B and K[2i-1] from bytes 2,3 of the
new B, and the four whitening halfwords are assembled by MakeH2 from
the stored pairs (K[8],K[9]), (K[10],K[11]), (K[12],K[13]),
(K[14],K[15]). -/
theorem setKey_matches_recurrence (k0 k1 k2 k3 k4 k5 k6 k7 i : Nat)
    (hi1 : 1 ≤ i) (hi8 : i ≤ 8) :
    (SetKey k0 k1 k2 k3 k4 k5 k6 k7).K.getD (2 * i - 2) 0
        = unionAll2
            (uByte ((schedIter i (unionAll4 k0 k1 k2 k3, unionAll4 k4 k5 k6 k7, 0)).2.1) 0)
            (uByte ((schedIter i (unionAll4 k0 k1 k2 k3, unionAll4 k4 k5 k6 k7, 0)).2.1) 1) ∧
    (SetKey k0 k1 k2 k3 k4 k5 k6 k7).K.getD (2 * i - 1) 0
        = unionAll2
            (uByte ((schedIter i (unionAll4 k0 k1 k2 k3, unionAll4 k4 k5 k6 k7, 0)).2.1) 2)
            (uByte ((schedIter i (unionAll4 k0 k1 k2 k3, unionAll4 k4 k5 k6 k7, 0)).2.1) 3) ∧
    (SetKey k0 k1 k2 k3 k4 k5 k6 k7).K89
        = MakeH2 ((SetKey k0 k1 k2 k3 k4 k5 k6 k7).K.getD 8 0)
            ((SetKey k0 k1 k2 k3 k4 k5 k6 k7).K.getD 9 0) ∧
    (SetKey k0 k1 k2 k3 k4 k5 k6 k7).K1011
        = MakeH2 ((SetKey k0 k1 k2 k3 k4 k5 k6 k7).K.getD 10 0)
            ((SetKey k0 k1 k2 k3 k4 k5 k6 k7).K.getD 11 0) ∧
    (SetKey k0 k1 k2 k3 k4 k5 k6 k7).K1213
        = MakeH2 ((SetKey k0 k1 k2 k3 k4 k5 k6 k7).K.getD 12 0)
            ((SetKey k0 k1 k2 k3 k4 k5 k6 k7).K.getD 13 0) ∧
    (SetKey k0 k1 k2 k3 k4 k5 k6 k7).K1415
        = MakeH2 ((SetKey k0 k1 k2 k3 k4 k5 k6 k7).K.getD 14 0)
            ((SetKey k0 k1 k2 k3 k4 k5 k6 k7).K.getD 15 0) := by
  obtain ⟨j, rfl⟩ : ∃ j, i = j + 1 := ⟨i - 1, by omega⟩
  have hj : j < 8 := by omega
  have h := setKeyLoop_getD_spec j 8 (unionAll4 k0 k1 k2 k3) (unionAll4 k4 k5 k6 k7) 0 hj
  have e1 : 2 * (j + 1) - 2 = 2 * j := by omega
  have e2 : 2 * (j + 1) - 1 = 2 * j + 1 := by omega
  exact ⟨by rw [e1]; exact h.1, by rw [e2]; exact h.2, rfl, rfl, rfl, rfl⟩

/-- Witness for C4 at the key 1 2 3 4 5 6 7 8 and iteration i = 1. -/
theorem setKey_matches_recurrence_witness :
    (SetKey 1 2 3 4 5 6 7 8).K.getD (2 * 1 - 2) 0
        = unionAll2
            (uByte ((schedIter 1 (unionAll4 1 2 3 4, unionAll4 5 6 7 8, 0)).2.1) 0)
            (uByte ((schedIter 1 (unionAll4 1 2 3 4, unionAll4 5 6 7 8, 0)).2.1) 1) ∧
    (SetKey 1 2 3 4 5 6 7 8).K.getD (2 * 1 - 1) 0
        = unionAll2
            (uByte ((schedIter 1 (unionAll4 1 2 3 4, unionAll4 5 6 7 8, 0)).2.1) 2)
            (uByte ((schedIter 1 (unionAll4 1 2 3 4, unionAll4 5 6 7 8, 0)).2.1) 3) ∧
    (SetKey 1 2 3 4 5 6 7 8).K89
        = MakeH2 ((SetKey 1 2 3 4 5 6 7 8).K.getD 8 0) ((SetKey 1 2 3 4 5 6 7 8).K.getD 9 0) ∧
    (SetKey 1 2 3 4 5 6 7 8).K1011
        = MakeH2 ((SetKey 1 2 3 4 5 6 7 8).K.getD 10 0) ((SetKey 1 2 3 4 5 6 7 8).K.getD 11 0) ∧
    (SetKey 1 2 3 4 5 6 7 8).K1213
        = MakeH2 ((SetKey 1 2 3 4 5 6 7 8).K.getD 12 0) ((SetKey 1 2 3 4 5 6 7 8).K.getD 13 0) ∧
    (SetKey 1 2 3 4 5 6 7 8).K1415
        = MakeH2 ((SetKey 1 2 3 4 5 6 7 8).K.getD 14 0) ((SetKey 1 2 3 4 5 6 7 8).K.getD 15 0) :=
  setKey_matches_recurrence 1 2 3 4 5 6 7 8 1 (by decide) (by decide)

theorem foldl_range_encStep (s : KeySchedule) (n : Nat) (q : Nat × Nat) :
    (List.range n).foldl (fun q r => encStep q (s.K.getD r 0)) q = encRoundsIdx s n q := by
  induction n with
  | zero => rfl
  | succ m ih => rw [List.range_succ, List.foldl_append, ih]; rfl

/-- C5: Encrypt pre-whitens with L xor K89, R xor K1011, R xor L, runs
exactly eight Feistel rounds with strictly increasing round index r,
round r computing NewR = L xor f(R, K[r]) and consuming subkey K[r]
exactly once, post-whitens with L xor R, R xor K1213, L xor K1415, and
writes the output halves swapped: the first four ciphertext bytes
unpack R and the next four unpack L. -/
theorem encrypt_structure (s : KeySchedule) (p : Block) :
    Encrypt s p =
      (let L := MakeH1 p.b0 p.b1 p.b2 p.b3 ^^^ s.K89
       let R := MakeH1 p.b4 p.b5 p.b6 p.b7 ^^^ s.K1011 ^^^ L
       let q := encRoundsIdx s 8 (L, R)
       let Lp := q.1 ^^^ q.2
       let Rp := q.2 ^^^ s.K1213
       let Lq := Lp ^^^ s.K1415
       ⟨uByte Rp 0, uByte Rp 1, uByte Rp 2, uByte Rp 3,
        uByte Lq 0, uByte Lq 1, uByte Lq 2, uByte Lq 3⟩) := by
  simp only [Encrypt, foldl_range_encStep]

/-- C7: the byte and word conversions are mutually inverse. Packing the
four bytes unpacked from a 32-bit halfword returns the halfword;
unpacking the halfword packed from four bytes returns the bytes; and
the same holds for the 16-bit quarterword and its two bytes. -/
theorem conversions_mutually_inverse :
    (∀ h, h < 2 ^ 32 →
        MakeH1 (DissH1 h).1 (DissH1 h).2.1 (DissH1 h).2.2.1 (DissH1 h).2.2.2 = h) ∧
    (∀ b0 b1 b2 b3, b0 < 256 → b1 < 256 → b2 < 256 → b3 < 256 →
        DissH1 (MakeH1 b0 b1 b2 b3) = (b0, b1, b2, b3)) ∧
    (∀ q, q < 2 ^ 16 → unionAll2 (DissQ1 q).1 (DissQ1 q).2 = q) ∧
    (∀ b0 b1, b0 < 256 → b1 < 256 → DissQ1 (unionAll2 b0 b1) = (b0, b1)) := by
  refine ⟨fun h hh => ?_, fun b0 b1 b2 b3 h0 h1 h2 h3 => ?_, fun q hq => ?_,
    fun b0 b1 h0 h1 => ?_⟩
  · simp only [DissH1]
    exact MakeH1_uByte h (by norm_num at hh; omega)
  · simp only [DissH1, uByte_MakeH1_zero, uByte_MakeH1_one, uByte_MakeH1_two, uByte_MakeH1_three,
      Nat.mod_eq_of_lt h0, Nat.mod_eq_of_lt h1, Nat.mod_eq_of_lt h2, Nat.mod_eq_of_lt h3]
  · simp only [DissQ1]
    exact unionAll2_uByte q (by norm_num at hq; omega)
  · have h := uByte_unionAll2 b0 b1
    simp only [DissQ1, h.1, h.2, Nat.mod_eq_of_lt h0, Nat.mod_eq_of_lt h1]

/-- Witness for C7 at the halfword 0x12345678, the bytes 1 2 3 4, the
quarterword 0x1234 and the bytes 9 7. -/
theorem conversions_mutually_inverse_witness :
    MakeH1 (DissH1 305419896).1 (DissH1 305419896).2.1 (DissH1 305419896).2.2.1
        (DissH1 305419896).2.2.2 = 305419896 ∧
    DissH1 (MakeH1 1 2 3 4) = (1, 2, 3, 4) ∧
    unionAll2 (DissQ1 4660).1 (DissQ1 4660).2 = 4660 ∧
    DissQ1 (unionAll2 9 7) = (9, 7) :=
  ⟨conversions_mutually_inverse.1 305419896 (by norm_num),
   conversions_mutually_inverse.2.1 1 2 3 4 (by decide) (by decide) (by decide) (by decide),
   conversions_mutually_inverse.2.2.1 4660 (by norm_num),
   conversions_mutually_inverse.2.2.2 9 7 (by decide) (by decide)⟩

/-- C8: every halfword the cipher produces fits in 32 bits even though
the carrier type is wider on LP64 hosts. MakeH1, f and FK always return
values below 2 to the 32, every whitening halfword of a SetKey schedule
and every stored subkey K[i] (below 2 to the 16) are in range, and all
intermediate L and R values of Encrypt and Decrypt, after any number of
rounds, stay below 2 to the 32. -/
theorem halfword_width_invariant :
    (∀ b0 b1 b2 b3, MakeH1 b0 b1 b2 b3 < 2 ^ 32) ∧
    (∀ AA BB, f AA BB < 2 ^ 32) ∧
    (∀ AA BB, FK AA BB < 2 ^ 32) ∧
    (∀ k0 k1 k2 k3 k4 k5 k6 k7,
        (SetKey k0 k1 k2 k3 k4 k5 k6 k7).K89 < 2 ^ 32 ∧
        (SetKey k0 k1 k2 k3 k4 k5 k6 k7).K1011 < 2 ^ 32 ∧
        (SetKey k0 k1 k2 k3 k4 k5 k6 k7).K1213 < 2 ^ 32 ∧
        (SetKey k0 k1 k2 k3 k4 k5 k6 k7).K1415 < 2 ^ 32 ∧
        ∀ i, (SetKey k0 k1 k2 k3 k4 k5 k6 k7).K.getD i 0 < 2 ^ 16) ∧
    (∀ k0 k1 k2 k3 k4 k5 k6 k7 (p c : Block) (n : Nat),
        let s := SetKey k0 k1 k2 k3 k4 k5 k6 k7
        let LE := MakeH1 p.b0 p.b1 p.b2 p.b3 ^^^ s.K89
        let RE := MakeH1 p.b4 p.b5 p.b6 p.b7 ^^^ s.K1011 ^^^ LE
        let qe := ((List.range 8).take n).foldl (fun q r => encStep q (s.K.getD r 0)) (LE, RE)
        let RD := MakeH1 c.b0 c.b1 c.b2 c.b3 ^^^ s.K1213
        let LD := MakeH1 c.b4 c.b5 c.b6 c.b7 ^^^ s.K1415 ^^^ RD
        let qd := ((List.range 8).reverse.take n).foldl
          (fun q r => decStep q (s.K.getD r 0)) (LD, RD)
        LE < 2 ^ 32 ∧ RE < 2 ^ 32 ∧ qe.1 < 2 ^ 32 ∧ qe.2 < 2 ^ 32 ∧
        qe.1 ^^^ qe.2 < 2 ^ 32 ∧ qe.2 ^^^ s.K1213 < 2 ^ 32 ∧
        qe.1 ^^^ qe.2 ^^^ s.K1415 < 2 ^ 32 ∧
        RD < 2 ^ 32 ∧ LD < 2 ^ 32 ∧ qd.1 < 2 ^ 32 ∧ qd.2 < 2 ^ 32 ∧
        qd.2 ^^^ qd.1 ^^^ s.K1011 < 2 ^ 32 ∧ qd.1 ^^^ s.K89 < 2 ^ 32) := by
  have hp : (2 : Nat) ^ 32 = 4294967296 := by norm_num
  have hq : (2 : Nat) ^ 16 = 65536 := by norm_num
  rw [hp, hq]
  refine ⟨unionAll4_lt, f_lt, FK_lt, ?_, ?_⟩
  · intro k0 k1 k2 k3 k4 k5 k6 k7
    exact ⟨MakeH2_lt _ _, MakeH2_lt _ _, MakeH2_lt _ _, MakeH2_lt _ _,
      fun i => setKeyLoop_getD_lt 8 _ _ _ i⟩
  · intro k0 k1 k2 k3 k4 k5 k6 k7 p c n
    set s := SetKey k0 k1 k2 k3 k4 k5 k6 k7 with hs
    have hLE : MakeH1 p.b0 p.b1 p.b2 p.b3 ^^^ s.K89 < 4294967296 :=
      xor32 (MakeH1_lt _ _ _ _) (MakeH2_lt _ _)
    have hRE : MakeH1 p.b4 p.b5 p.b6 p.b7 ^^^ s.K1011 ^^^ (MakeH1 p.b0 p.b1 p.b2 p.b3 ^^^ s.K89)
        < 4294967296 := xor32 (xor32 (MakeH1_lt _ _ _ _) (MakeH2_lt _ _)) hLE
    have hRD : MakeH1 c.b0 c.b1 c.b2 c.b3 ^^^ s.K1213 < 4294967296 :=
      xor32 (MakeH1_lt _ _ _ _) (MakeH2_lt _ _)
    have hLD : MakeH1 c.b4 c.b5 c.b6 c.b7 ^^^ s.K1415 ^^^ (MakeH1 c.b0 c.b1 c.b2 c.b3 ^^^ s.K1213)
        < 4294967296 := xor32 (xor32 (MakeH1_lt _ _ _ _) (MakeH2_lt _ _)) hRD
    have hqe := foldl_encStep_lt (((List.range 8).take n).map fun r => s.K.getD r 0)
      (MakeH1 p.b0 p.b1 p.b2 p.b3 ^^^ s.K89,
        MakeH1 p.b4 p.b5 p.b6 p.b7 ^^^ s.K1011 ^^^ (MakeH1 p.b0 p.b1 p.b2 p.b3 ^^^ s.K89))
      hLE hRE
    have hqd := foldl_decStep_lt (((List.range 8).reverse.take n).map fun r => s.K.getD r 0)
      (MakeH1 c.b4 c.b5 c.b6 c.b7 ^^^ s.K1415 ^^^ (MakeH1 c.b0 c.b1 c.b2 c.b3 ^^^ s.K1213),
        MakeH1 c.b0 c.b1 c.b2 c.b3 ^^^ s.K1213)
      hLD hRD
    rw [List.foldl_map] at hqe hqd
    exact ⟨hLE, hRE, hqe.1, hqe.2, xor32 hqe.1 hqe.2, xor32 hqe.2 (MakeH2_lt _ _),
      xor32 (xor32 hqe.1 hqe.2) (MakeH2_lt _ _), hRD, hLD, hqd.1, hqd.2,
      xor32 (xor32 hqd.2 hqd.1) (MakeH2_lt _ _), xor32 hqd.1 (MakeH2_lt _ _)⟩

theorem runOps_id (ops : List CipherOp) (g : KeySchedule) : runOps ops g = g := by
  induction ops generalizing g with
  | nil => rfl
  | cons op ops ih => cases op <;> exact ih g

/-- C9: Encrypt and Decrypt leave the derived key schedule unchanged -
the state-passing renderings return the global key state as SetKey last
stored it, across any sequence of calls. -/
theorem schedule_unchanged :
    (∀ g p, (EncryptSt g p).1 = g) ∧
    (∀ g c, (DecryptSt g c).1 = g) ∧
    (∀ (ops : List CipherOp) k0 k1 k2 k3 k4 k5 k6 k7,
        runOps ops (SetKey k0 k1 k2 k3 k4 k5 k6 k7) = SetKey k0 k1 k2 k3 k4 k5 k6 k7) :=
  ⟨fun g p => rfl, fun g c => rfl, fun ops k0 k1 k2 k3 k4 k5 k6 k7 => runOps_id ops _⟩

/-- C10: the construction boundary rejects every key and every block
whose length is not exactly 8 with InvalidKeyLength respectively
InvalidBlockLength, accepts exactly the 8-byte inputs, and consumes an
accepted input byte for byte, never truncating or padding. -/
theorem construction_rejects_bad_lengths :
    (∀ key, key.length ≠ 8 → derive_schedule key = .error .InvalidKeyLength) ∧
    (∀ key sch, derive_schedule key = .ok sch → key.length = 8) ∧
    (∀ k0 k1 k2 k3 k4 k5 k6 k7,
        derive_schedule [k0, k1, k2, k3, k4, k5, k6, k7]
          = .ok (SetKey k0 k1 k2 k3 k4 k5 k6 k7)) ∧
    (∀ p s, p.length ≠ 8 → encrypt_block p s = .error .InvalidBlockLength) ∧
    (∀ c s, c.length ≠ 8 → decrypt_block c s = .error .InvalidBlockLength) := by
  have hlen : ∀ (key : List Nat), key.length ≠ 8 →
      derive_schedule key = .error .InvalidKeyLength := by
    intro key h
    rcases key with _ | ⟨a0, _ | ⟨a1, _ | ⟨a2, _ | ⟨a3, _ | ⟨a4, _ | ⟨a5, _ | ⟨a6, _ |
      ⟨a7, _ | ⟨a8, rest⟩⟩⟩⟩⟩⟩⟩⟩⟩
    · rfl
    · rfl
    · rfl
    · rfl
    · rfl
    · rfl
    · rfl
    · rfl
    · exact absurd rfl h
    · rfl
  have hok : ∀ (key : List Nat) sch, derive_schedule key = .ok sch → key.length = 8 := by
    intro key sch h
    by_contra hne
    rw [hlen key hne] at h
    exact Except.noConfusion h
  have henc : ∀ (p : List Nat) s, p.length ≠ 8 →
      encrypt_block p s = .error .InvalidBlockLength := by
    intro p s h
    rcases p with _ | ⟨a0, _ | ⟨a1, _ | ⟨a2, _ | ⟨a3, _ | ⟨a4, _ | ⟨a5, _ | ⟨a6, _ |
      ⟨a7, _ | ⟨a8, rest⟩⟩⟩⟩⟩⟩⟩⟩⟩
    · rfl
    · rfl
    · rfl
    · rfl
    · rfl
    · rfl
    · rfl
    · rfl
    · exact absurd rfl h
    · rfl
  have hdec : ∀ (c : List Nat) s, c.length ≠ 8 →
      decrypt_block c s = .error .InvalidBlockLength := by
    intro c s h
    rcases c with _ | ⟨a0, _ | ⟨a1, _ | ⟨a2, _ | ⟨a3, _ | ⟨a4, _ | ⟨a5, _ | ⟨a6, _ |
      ⟨a7, _ | ⟨a8, rest⟩⟩⟩⟩⟩⟩⟩⟩⟩
    · rfl
    · rfl
    · rfl
    · rfl
    · rfl
    · rfl
    · rfl
    · rfl
    · exact absurd rfl h
    · rfl
  exact ⟨hlen, hok, fun k0 k1 k2 k3 k4 k5 k6 k7 => rfl, henc, hdec⟩

/-- Witness for C10 at a 3-byte key, an 8-byte key, an empty plaintext
and a 9-byte ciphertext. -/
theorem construction_rejects_bad_lengths_witness :
    derive_schedule [1, 2, 3] = .error .InvalidKeyLength ∧
    derive_schedule [1, 2, 3, 4, 5, 6, 7, 8] = .ok (SetKey 1 2 3 4 5 6 7 8) ∧
    encrypt_block [] (SetKey 1 2 3 4 5 6 7 8) = .error .InvalidBlockLength ∧
    decrypt_block [0, 0, 0, 0, 0, 0, 0, 0, 0] (SetKey 1 2 3 4 5 6 7 8)
      = .error .InvalidBlockLength :=
  ⟨construction_rejects_bad_lengths.1 [1, 2, 3] (by decide),
   construction_rejects_bad_lengths.2.2.1 1 2 3 4 5 6 7 8,
   construction_rejects_bad_lengths.2.2.2.1 [] (SetKey 1 2 3 4 5 6 7 8) (by decide),
   construction_rejects_bad_lengths.2.2.2.2 [0, 0, 0, 0, 0, 0, 0, 0, 0]
     (SetKey 1 2 3 4 5 6 7 8) (by decide)⟩

end Feal
